import Mathlib

/-!
Verification of the two cipher engines of this repository: the Gronsfeld-style
shift cipher (`modAlphaCipher`) and the columnar route-transposition cipher
(`Table`).  Wide strings are embedded as lists of Unicode code points
(`List Nat`); fallible operations return `Except String` carrying the exact
exception message thrown by the C++ code.
-/

/-- Model of glibc `iswalpha` (as used through `<cwctype>` under a UTF-8
locale), restricted to the character ranges this program works with: ASCII
Latin letters and the Russian Cyrillic letters А-я plus Ё/ё. -/
def iswalpha (c : Nat) : Bool :=
  (65 ≤ c && c ≤ 90) || (97 ≤ c && c ≤ 122) ||
  (1040 ≤ c && c ≤ 1103) || c = 1025 || c = 1105

/-- Model of glibc `iswupper` on the same ranges: ASCII capitals, Cyrillic
capitals А-Я (1040-1071) and Ё (1025). -/
def iswupper (c : Nat) : Bool :=
  (65 ≤ c && c ≤ 90) || (1040 ≤ c && c ≤ 1071) || c = 1025

/-- Model of glibc `iswlower` on the same ranges: ASCII small letters,
Cyrillic small letters а-я (1072-1103) and ё (1105). -/
def iswlower (c : Nat) : Bool :=
  (97 ≤ c && c ≤ 122) || (1072 ≤ c && c ≤ 1103) || c = 1105

/-- Model of `std::towupper` on the ranges this program feeds it (the custom
`toUpper` handles Cyrillic small letters before falling back to it): ASCII
small letters are uppercased, everything else is returned unchanged. -/
def towupper (c : Nat) : Nat :=
  if 97 ≤ c && c ≤ 122 then c - 32 else c

namespace modAlpha

/-- The field `numAlpha = L"АБВГДЕЁЖЗИЙКЛМНОПРСТУФХЦЧШЩЪЫЬЭЮЯ"` of
`modAlphaCipher`, as code points.  Note it holds 33 letters (Ё sits between
Е and Ж). -/
def numAlpha : List Nat :=
  [1040, 1041, 1042, 1043, 1044, 1045, 1025, 1046, 1047, 1048, 1049,
   1050, 1051, 1052, 1053, 1054, 1055, 1056, 1057, 1058, 1059, 1060,
   1061, 1062, 1063, 1064, 1065, 1066, 1067, 1068, 1069, 1070, 1071]

/-- First index of `c` in a list, starting the count at `i`.  Helper for
`alphaNum`. -/
def lookupIdx (c : Nat) : List Nat → Nat → Option Nat
  | [], _ => none
  | a :: as, i => if a = c then some i else lookupIdx c as (i + 1)

/-- The associative array `alphaNum` built by the constructor from `numAlpha`
(`alphaNum[numAlpha[i]] = i`).  Since the 33 letters are distinct, the map
sends a letter to its unique position and anything else to nothing
(`find == end`). -/
def alphaNum (c : Nat) : Option Nat := lookupIdx c numAlpha 0

/-- Model of `modAlphaCipher::toUpper`: Cyrillic а-я via the explicit range check,
ё explicitly, otherwise `std::towupper`. -/
def toUpper (c : Nat) : Nat :=
  if 1072 ≤ c && c ≤ 1103 then 1040 + (c - 1072)
  else if c = 1105 then 1025
  else towupper c

/-- The per-character case fold both validators apply:
`if (iswlower(c)) c = toUpper(c)`. -/
def foldUpper (c : Nat) : Nat := if iswlower c then toUpper c else c

/-- Model of `modAlphaCipher::getValidKey`: throws on an empty key, throws at the
first non-alphabetic character, and uppercases lowercase letters.  The C++
loop throws at the first offender; since there is a single message the
order of inspection is unobservable and an `all` check is equivalent. -/
def getValidKey (s : List Nat) : Except String (List Nat) :=
  if s.isEmpty then .error "Empty key"
  else if s.all iswalpha then .ok (s.map foldUpper)
  else .error "Invalid key: non-alphabetic character"

/-- Model of `modAlphaCipher::getValidOpenText`: keep only `iswalpha` characters,
fold them to uppercase, and throw if nothing survives. -/
def getValidOpenText (s : List Nat) : Except String (List Nat) :=
  let tmp := (s.filter iswalpha).map foldUpper
  if tmp.isEmpty then .error "Empty text, no letters" else .ok tmp

/-- Model of `modAlphaCipher::getValidCipherText`: throws on empty input, then throws
if any character fails `iswupper`; the text is passed through unchanged. -/
def getValidCipherText (s : List Nat) : Except String (List Nat) :=
  if s.isEmpty then .error "Empty cipher text"
  else if s.all iswupper then .ok s
  else .error "Incorrect data entry"

/-- Model of `modAlphaCipher::convert(const std::wstring&)`: each character is
uppercased via `toUpper` and looked up in `alphaNum`; characters not in the
alphabet are silently skipped. -/
def convertStr (s : List Nat) : List Nat :=
  s.filterMap (fun c => alphaNum (toUpper c))

/-- Model of `modAlphaCipher::convert(const std::vector<int>&)`: indices in
`[0, numAlpha.size())` are mapped back to letters, out-of-range entries are
skipped.  Indices are naturals here so only the upper bound remains, which
is exactly what `List.get?` checks. -/
def convertVec (v : List Nat) : List Nat :=
  v.filterMap (fun i => numAlpha.get? i)

/-- The constructor `modAlphaCipher(skey)`: the stored numeric key is
`convert(getValidKey(skey))`. -/
def makeKey (skey : List Nat) : Except String (List Nat) :=
  (getValidKey skey).map convertStr

/-- The encryption loop
`work[i] = (work[i] + key[i % key.size()]) % numAlpha.size()` written as a
map over the index range. -/
def encVec (key work : List Nat) : List Nat :=
  (List.range work.length).map
    (fun i => (work.getD i 0 + key.getD (i % key.length) 0) % numAlpha.length)

/-- The decryption loop
`work[i] = (work[i] + numAlpha.size() - key[i % key.size()]) % numAlpha.size()`.
The C++ arithmetic is on `int`; since key entries produced by `convert` are
alphabet indices (≤ 32), the value `work[i] + 33 - key[..]` never goes
negative and natural subtraction agrees with it. -/
def decVec (key work : List Nat) : List Nat :=
  (List.range work.length).map
    (fun i => (work.getD i 0 + numAlpha.length - key.getD (i % key.length) 0) %
      numAlpha.length)

/-- Model of `modAlphaCipher::encrypt`.  When the derived key vector is empty and the
text survives validation, the C++ expression `i % key.size()` divides by
zero — undefined behavior — which the embedding surfaces as an explicit
error value instead of picking a result. -/
def encrypt (key t : List Nat) : Except String (List Nat) := do
  let valid ← getValidOpenText t
  let work := convertStr valid
  if key.isEmpty && !work.isEmpty then
    .error "undefined: empty key (modulo by zero)"
  else
    .ok (convertVec (encVec key work))

/-- Model of `modAlphaCipher::decrypt`, with the same undefined-behavior caveat for an
empty derived key as `encrypt`. -/
def decrypt (key t : List Nat) : Except String (List Nat) := do
  let valid ← getValidCipherText t
  let work := convertStr valid
  if key.isEmpty && !work.isEmpty then
    .error "undefined: empty key (modulo by zero)"
  else
    .ok (convertVec (decVec key work))

/-- Stated from the spec wording: normalization of a text for the shift
engine — discard non-alphabetic characters, fold survivors to uppercase,
and keep only letters of the engine's alphabet.  This is the value the
round-trip law compares against. -/
def normalizeAlpha (t : List Nat) : List Nat :=
  ((t.filter iswalpha).map foldUpper).filter (fun c => numAlpha.contains c)

end modAlpha

namespace Table

/-- The string `upper = L"АБВГДЕЁЖЗИЙКЛМНОПРСТУФХЦЧШЩЪЫЬЭЮЯ"` used by the
`Table` validators (33 letters, same order as the shift engine's alphabet). -/
def upperT : List Nat := modAlpha.numAlpha

/-- The string `lower = L"абвгдеёжзийклмнопрстуфхцчшщъыьэюя"` used by
`Table::getValidOpenText`. -/
def lowerT : List Nat :=
  [1072, 1073, 1074, 1075, 1076, 1077, 1105, 1078, 1079, 1080, 1081,
   1082, 1083, 1084, 1085, 1086, 1087, 1088, 1089, 1090, 1091, 1092,
   1093, 1094, 1095, 1096, 1097, 1098, 1099, 1100, 1101, 1102, 1103]

/-- One step of `Table::getValidOpenText`'s loop: an uppercase alphabet
letter is kept, a lowercase one is replaced by `upper[pos]` for its
position `pos` in `lower`, anything else is dropped. -/
def validChar (c : Nat) : Option Nat :=
  if upperT.contains c then some c
  else (modAlpha.lookupIdx c lowerT 0).map (fun pos => upperT.getD pos 0)

/-- The normalized text `Table::getValidOpenText` accumulates in `tmp`. -/
def normalizeT (s : List Nat) : List Nat := s.filterMap validChar

/-- Model of `Table::getValidOpenText`: filter/fold as above, throw if nothing
survives. -/
def getValidOpenText (s : List Nat) : Except String (List Nat) :=
  let tmp := normalizeT s
  if tmp.isEmpty then .error "Empty text: no valid Russian letters"
  else .ok tmp

/-- Model of `Table::getValidCipherText`: throws on empty input, then throws if any
character is not one of the 33 uppercase letters. -/
def getValidCipherText (s : List Nat) : Except String (List Nat) :=
  if s.isEmpty then .error "Empty cipher text"
  else if s.all (fun c => upperT.contains c) then .ok s
  else .error "Invalid cipher text"

/-- Model of `Table::getValidKey` on the `int` key, including the unreachable
negative-key branch that sits after the `key <= 0` check. -/
def getValidKey (key : Int) : Except String Int :=
  if key ≤ 0 then .error "Invalid key: cannot be zero"
  else if key < 0 then .error "Invalid key: cannot be negative"
  else if key > 100 then .error "Invalid key: too large"
  else .ok key

/-- The grid cell the row-major fill of `Table::encrypt` leaves at
`(row, col)`: the running index equals `row * cols + col`, so the cell holds
`validText[row * cols + col]` when that index is below the text length and
the blank `L' '` (code 32) otherwise — which is exactly `getD` with
default 32. -/
def encCell (v : List Nat) (cols row col : Nat) : Nat :=
  v.getD (row * cols + col) 32

/-- Model of `Table::encrypt`: validate, lay out row-major in a
`rows × cols` grid with `rows = (n + cols - 1) / cols`, then read the grid
column-major from column `cols-1` down to `0`, emitting only non-blank
cells.  (The `n == 0` early return in the source is dead code: validation
guarantees a non-empty text.) -/
def encrypt (cols : Nat) (plain : List Nat) : Except String (List Nat) := do
  let v ← getValidOpenText plain
  let n := v.length
  let rows := (n + cols - 1) / cols
  .ok (((List.range cols).reverse).flatMap (fun col =>
    (List.range rows).filterMap (fun row =>
      if encCell v cols row col ≠ 32 then some (encCell v cols row col)
      else none)))

/-- Split a list into consecutive chunks of the given lengths, clipping at
the end of the list; chunk `j` is what the fill loop of `Table::decrypt`
writes into the `j`-th column it visits (the guard `index < n` is the same
clipping). -/
def splitDepths {α : Type _} : List Nat → List α → List (List α)
  | [], _ => []
  | d :: ds, w => w.take d :: splitDepths ds (w.drop d)

/-- Model of `Table::decrypt`: validate, recompute `rows` and
`fullCols = n % cols` (or `cols` when the remainder is zero), refill the
grid column by column from column `cols-1` down to `0` — a column at index
`≥ fullCols` only receives `rows - 1` characters — and read the grid back
row-major, skipping blank cells.  Column `col` is the `(cols-1-col)`-th
chunk consumed; a cell is non-blank exactly when its chunk is long enough,
since validated characters are letters and never the blank `L' '`. -/
def decrypt (cols : Nat) (cipher : List Nat) : Except String (List Nat) := do
  let v ← getValidCipherText cipher
  let n := v.length
  let rows := (n + cols - 1) / cols
  let fullCols := if n % cols = 0 then cols else n % cols
  let fills := splitDepths
    (((List.range cols).reverse).map
      (fun col => if fullCols ≤ col then rows - 1 else rows)) v
  .ok ((List.range rows).flatMap (fun row =>
    (List.range cols).filterMap (fun col =>
      (fills.getD (cols - 1 - col) []).get? row)))

end Table

/-! ### General list lemmas -/

theorem except_ok_bind {e a b : Type _} (x : a) (f : a → Except e b) :
    (do let v ← (Except.ok x : Except e a); f v) = f x := rfl

theorem filterMap_range_get? {α : Type _} (w : List α) (k : Nat) :
    (List.range k).filterMap (fun i => w.get? i) = w.take k := by
  induction k with
  | zero => simp
  | succ k ih =>
    rw [List.range_succ, List.filterMap_append, ih]
    simp only [List.filterMap_cons, List.filterMap_nil]
    cases h : w.get? k with
    | none =>
      have hk : w.length ≤ k := List.get?_eq_none.mp h
      rw [List.take_of_length_le hk, List.take_of_length_le (Nat.le_succ_of_le hk)]
      simp
    | some a =>
      rw [List.take_succ]
      have : w[k]? = some a := by rwa [List.get?_eq_getElem?] at h
      simp [this]

theorem filterMap_range_get?_add {α : Type _} (w : List α) (s k : Nat) :
    (List.range k).filterMap (fun i => w.get? (s + i)) = (w.drop s).take k := by
  have h : ∀ i : Nat, w.get? (s + i) = (w.drop s).get? i := by
    intro i
    rw [List.get?_eq_getElem?, List.get?_eq_getElem?, List.getElem?_drop]
  simp only [h, filterMap_range_get?]

theorem flatMap_range_chunks {α : Type _} (cols : Nat) :
    ∀ (rows : Nat) (v : List α), v.length ≤ rows * cols →
      (List.range rows).flatMap (fun r => (v.drop (r * cols)).take cols) = v := by
  intro rows
  induction rows with
  | zero =>
    intro v hv
    simp only [Nat.zero_mul, Nat.le_zero, List.length_eq_zero] at hv
    simp [hv]
  | succ rows ih =>
    intro v hv
    have harg : ∀ r : Nat,
        ((v.drop (Nat.succ r * cols)).take cols) =
          (((v.drop cols).drop (r * cols)).take cols) := by
      intro r
      rw [List.drop_drop]
      have : Nat.succ r * cols = cols + r * cols := by
        rw [Nat.succ_mul]; omega
      rw [this]
    have hlen : (v.drop cols).length ≤ rows * cols := by
      have : Nat.succ rows * cols = rows * cols + cols := by
        rw [Nat.succ_mul]
      rw [this] at hv
      simp only [List.length_drop]
      omega
    have key : ((List.range rows).map Nat.succ).flatMap
          (fun r => (v.drop (r * cols)).take cols)
        = (List.range rows).flatMap
          (fun r => ((v.drop cols).drop (r * cols)).take cols) := by
      rw [List.flatMap_map]
      exact List.flatMap_congr (fun r _ => harg r)
    rw [List.range_succ_eq_map, List.flatMap_cons, key, ih (v.drop cols) hlen,
      Nat.zero_mul, List.drop_zero, List.take_append_drop]

theorem filterMap_eq_map_of_some {α β : Type _} {f : α → Option β} {g : α → β} :
    ∀ l : List α, (∀ a ∈ l, f a = some (g a)) → l.filterMap f = l.map g
  | [], _ => rfl
  | a :: l, h => by
    rw [List.filterMap_cons, h a (List.mem_cons_self a l), List.map_cons,
      filterMap_eq_map_of_some l (fun x hx => h x (List.mem_cons_of_mem a hx))]

theorem filterMap_range_prefix {β : Type _} (f : Nat → Option β) (g : Nat → β) :
    ∀ (R d : Nat), d ≤ R → (∀ r, r < d → f r = some (g r)) →
      (∀ r, d ≤ r → r < R → f r = none) →
      (List.range R).filterMap f = (List.range d).map g := by
  intro R
  induction R with
  | zero =>
    intro d hd _ _
    have : d = 0 := Nat.le_zero.mp hd
    simp [this]
  | succ R ih =>
    intro d hd hs hn
    by_cases hdR : d ≤ R
    · rw [List.range_succ, List.filterMap_append,
        ih d hdR hs (fun r h1 h2 => hn r h1 (Nat.lt_succ_of_lt h2))]
      simp [hn R hdR (Nat.lt_succ_self R)]
    · have hdd : d = R + 1 := by omega
      subst hdd
      exact filterMap_eq_map_of_some _ (fun r hr => hs r (List.mem_range.mp hr))

theorem splitDepths_flatten {α : Type _} :
    ∀ (ls : List (List α)),
      Table.splitDepths (ls.map List.length) ls.flatten = ls
  | [] => rfl
  | l :: ls => by
    simp only [List.map_cons, List.flatten_cons, Table.splitDepths]
    rw [List.take_left, List.drop_left, splitDepths_flatten ls]

theorem flatten_splitDepths {α : Type _} :
    ∀ (ds : List Nat) (w : List α), w.length ≤ ds.sum →
      (Table.splitDepths ds w).flatten = w
  | [], w, h => by
    simp only [List.sum_nil, Nat.le_zero, List.length_eq_zero] at h
    simp [Table.splitDepths, h]
  | d :: ds, w, h => by
    simp only [Table.splitDepths, List.flatten_cons]
    rw [flatten_splitDepths ds (w.drop d)
      (by simp only [List.length_drop]; simp only [List.sum_cons] at h; omega)]
    exact List.take_append_drop d w

theorem flatMap_append_perm {α β : Type _} (l : List α) (f g : α → List β) :
    (l.flatMap fun a => f a ++ g a).Perm (l.flatMap f ++ l.flatMap g) := by
  induction l with
  | nil => simp
  | cons a l ih =>
    simp only [List.flatMap_cons]
    have step : ((f a ++ g a) ++ (l.flatMap f ++ l.flatMap g)).Perm
        ((f a ++ l.flatMap f) ++ (g a ++ l.flatMap g)) := by
      rw [List.append_assoc (f a) (g a), List.append_assoc (f a) (l.flatMap f)]
      exact (List.perm_append_comm_assoc (g a) (l.flatMap f) (l.flatMap g)).append_left (f a)
    exact (ih.append_left (f a ++ g a)).trans step

theorem flatMap_perm_of_forall_perm {α β : Type _} (l : List α) (f g : α → List β)
    (h : ∀ a ∈ l, (f a).Perm (g a)) : (l.flatMap f).Perm (l.flatMap g) := by
  induction l with
  | nil => simp
  | cons a l ih =>
    simp only [List.flatMap_cons]
    exact (h a (List.mem_cons_self a l)).append
      (ih (fun x hx => h x (List.mem_cons_of_mem a hx)))

theorem flatMap_toList_eq_filterMap {α β : Type _} (l : List α) (f : α → Option β) :
    (l.flatMap fun a => (f a).toList) = l.filterMap f := by
  induction l with
  | nil => simp
  | cons a l ih =>
    simp only [List.flatMap_cons, List.filterMap_cons]
    cases h : f a <;> simp [h, ih]

theorem getD_reverse_range (n j : Nat) (h : j < n) :
    ((List.range n).reverse).getD j 0 = n - 1 - j := by
  rw [List.getD_eq_get?, List.get?_eq_getElem?,
    List.getElem?_reverse (by simpa using h), List.length_range,
    List.getElem?_range (by omega)]
  rfl

/-! ### Character-classification and alphabet lemmas -/

theorem foldUpper_upper {c : Nat} (h : iswalpha c = true) :
    iswupper (modAlpha.foldUpper c) = true := by
  simp only [iswalpha, Bool.or_eq_true, Bool.and_eq_true, decide_eq_true_eq] at h
  simp only [modAlpha.foldUpper, modAlpha.toUpper, towupper, iswlower, iswupper,
    Bool.or_eq_true, Bool.and_eq_true, decide_eq_true_eq]
  split_ifs <;> simp_all <;> omega

theorem toUpper_of_upper {c : Nat} (h : iswupper c = true) :
    modAlpha.toUpper c = c := by
  simp only [iswupper, Bool.or_eq_true, Bool.and_eq_true, decide_eq_true_eq] at h
  simp only [modAlpha.toUpper, towupper]
  split_ifs <;> simp_all <;> omega

theorem mem_numAlpha_iff {c : Nat} :
    c ∈ modAlpha.numAlpha ↔ ((1040 ≤ c ∧ c ≤ 1071) ∨ c = 1025) := by
  simp only [modAlpha.numAlpha, List.mem_cons, List.not_mem_nil, or_false]
  omega

theorem contains_eq_mem_list {c : Nat} {l : List Nat} :
    l.contains c = true ↔ c ∈ l := by
  simp [List.contains]

theorem iswupper_of_mem_numAlpha {c : Nat} (h : c ∈ modAlpha.numAlpha) :
    iswupper c = true := by
  rw [mem_numAlpha_iff] at h
  simp only [iswupper, Bool.or_eq_true, Bool.and_eq_true, decide_eq_true_eq]
  omega

theorem numAlpha_nodup : modAlpha.numAlpha.Nodup := by decide

theorem numAlpha_length : modAlpha.numAlpha.length = 33 := rfl

/-! ### `lookupIdx` (the `alphaNum` associative array) -/

theorem lookupIdx_eq_none {c : Nat} :
    ∀ (l : List Nat) (i : Nat), (∀ x ∈ l, x ≠ c) → modAlpha.lookupIdx c l i = none
  | [], _, _ => rfl
  | a :: l, i, h => by
    rw [modAlpha.lookupIdx, if_neg (h a (List.mem_cons_self a l)),
      lookupIdx_eq_none l (i + 1) (fun x hx => h x (List.mem_cons_of_mem a hx))]

theorem lookupIdx_isSome {c : Nat} :
    ∀ (l : List Nat) (i : Nat), c ∈ l → (modAlpha.lookupIdx c l i).isSome = true
  | [], _, h => absurd h (List.not_mem_nil c)
  | a :: l, i, h => by
    rw [modAlpha.lookupIdx]
    by_cases ha : a = c
    · rw [if_pos ha]; rfl
    · rw [if_neg ha]
      have hml : c ∈ l := by
        rcases List.mem_cons.mp h with h1 | h1
        · exact absurd h1.symm ha
        · exact h1
      exact lookupIdx_isSome l (i + 1) hml

theorem lookupIdx_spec {c : Nat} :
    ∀ (l : List Nat) (i j : Nat), modAlpha.lookupIdx c l i = some j →
      i ≤ j ∧ j - i < l.length ∧ l.get? (j - i) = some c
  | [], _, _, h => by simp [modAlpha.lookupIdx] at h
  | a :: l, i, j, h => by
    rw [modAlpha.lookupIdx] at h
    by_cases ha : a = c
    · rw [if_pos ha] at h
      have hj : j = i := by injection h with h; omega
      subst hj
      simp [Nat.sub_self, ha]
    · rw [if_neg ha] at h
      obtain ⟨h1, h2, h3⟩ := lookupIdx_spec l (i + 1) j h
      refine ⟨by omega, by simp only [List.length_cons]; omega, ?_⟩
      have : j - i = (j - (i + 1)) + 1 := by omega
      rw [this, List.get?_cons_succ]
      exact h3

theorem alphaNum_lt {c j : Nat} (h : modAlpha.alphaNum c = some j) : j < 33 := by
  obtain ⟨-, h2, -⟩ := lookupIdx_spec modAlpha.numAlpha 0 j h
  simpa [numAlpha_length] using h2

theorem alphaNum_bind_get? (c : Nat) :
    (modAlpha.alphaNum c).bind modAlpha.numAlpha.get? =
      if c ∈ modAlpha.numAlpha then some c else none := by
  by_cases hc : c ∈ modAlpha.numAlpha
  · rw [if_pos hc]
    have hs := lookupIdx_isSome modAlpha.numAlpha 0 hc
    obtain ⟨j, hj⟩ := Option.isSome_iff_exists.mp hs
    obtain ⟨-, -, h3⟩ := lookupIdx_spec modAlpha.numAlpha 0 j hj
    rw [modAlpha.alphaNum, hj]
    simpa using h3
  · rw [if_neg hc, modAlpha.alphaNum,
      lookupIdx_eq_none modAlpha.numAlpha 0 (fun x hx hxc => hc (by rwa [hxc] at hx))]
    rfl

theorem alphaNum_of_getD {j : Nat} (h : j < 33) :
    modAlpha.alphaNum (modAlpha.numAlpha.getD j 0) = some j := by
  revert j
  decide

/-! ### Shift-engine pipeline lemmas -/

theorem getD_map_range {α : Type _} {f : Nat → α} {n i : Nat} (h : i < n) (d : α) :
    ((List.range n).map f).getD i d = f i := by
  rw [List.getD_eq_getElem?_getD, List.getElem?_map, List.getElem?_range h]
  rfl

theorem map_range_getD {α : Type _} (l : List α) (d : α) :
    (List.range l.length).map (fun i => l.getD i d) = l := by
  apply List.ext_getElem
  · simp
  · intro i h1 h2
    simp only [List.getElem_map, List.getElem_range]
    rw [List.getD_eq_getElem?_getD, List.getElem?_eq_getElem h2]
    rfl

theorem filterMap_mem_guard {l : List Nat} {m : List Nat} :
    (l.filterMap fun c => if c ∈ m then some c else none) =
      l.filter (fun c => m.contains c) := by
  induction l with
  | nil => rfl
  | cons a l ih =>
    rw [List.filterMap_cons]
    by_cases ha : a ∈ m
    · rw [if_pos ha, ih]
      simp [ha]
    · rw [if_neg ha, ih]
      simp [ha]

theorem getD_mem_of_lt {α : Type _} {l : List α} {i : Nat} (h : i < l.length) (d : α) :
    l.getD i d ∈ l := by
  rw [List.getD_eq_getElem?_getD, List.getElem?_eq_getElem h]
  exact List.getElem_mem h

theorem mem_validOpen_upper {s : List Nat} {c : Nat}
    (hc : c ∈ (s.filter iswalpha).map modAlpha.foldUpper) : iswupper c = true := by
  obtain ⟨a, ha, rfl⟩ := List.mem_map.mp hc
  exact foldUpper_upper (List.of_mem_filter ha)

theorem convertStr_of_upper {u : List Nat} (hu : ∀ c ∈ u, iswupper c = true) :
    modAlpha.convertStr u = u.filterMap modAlpha.alphaNum :=
  List.filterMap_congr (fun c hc => by rw [toUpper_of_upper (hu c hc)])

theorem convertVec_filterMap_alphaNum (u : List Nat) :
    modAlpha.convertVec (u.filterMap modAlpha.alphaNum) =
      u.filter (fun c => modAlpha.numAlpha.contains c) := by
  rw [modAlpha.convertVec, List.filterMap_filterMap, ← filterMap_mem_guard]
  exact List.filterMap_congr (fun c _ => alphaNum_bind_get? c)

theorem convertStr_lt {s : List Nat} {x : Nat} (hx : x ∈ modAlpha.convertStr s) :
    x < 33 := by
  obtain ⟨c, -, hc⟩ := List.mem_filterMap.mp hx
  exact alphaNum_lt hc

theorem encVec_lt {key work : List Nat} {x : Nat} (hx : x ∈ modAlpha.encVec key work) :
    x < 33 := by
  obtain ⟨i, -, rfl⟩ := List.mem_map.mp hx
  exact Nat.mod_lt _ (by rw [numAlpha_length]; omega)

theorem encVec_length (key work : List Nat) :
    (modAlpha.encVec key work).length = work.length := by
  rw [modAlpha.encVec, List.length_map, List.length_range]

theorem decVec_encVec {key work : List Nat} (hk : key ≠ [])
    (hkey : ∀ x ∈ key, x < 33) (hw : ∀ x ∈ work, x < 33) :
    modAlpha.decVec key (modAlpha.encVec key work) = work := by
  rw [modAlpha.decVec, encVec_length]
  have step : ∀ i < work.length,
      (modAlpha.encVec key work).getD i 0 =
        (work.getD i 0 + key.getD (i % key.length) 0) % modAlpha.numAlpha.length := by
    intro i hi
    rw [modAlpha.encVec, getD_map_range hi]
  have hkl : 0 < key.length := List.length_pos.mpr hk
  have final : ∀ i < work.length,
      ((modAlpha.encVec key work).getD i 0 + modAlpha.numAlpha.length -
          key.getD (i % key.length) 0) % modAlpha.numAlpha.length = work.getD i 0 := by
    intro i hi
    rw [step i hi, numAlpha_length]
    have hp : work.getD i 0 < 33 := hw _ (getD_mem_of_lt hi 0)
    have hkk : key.getD (i % key.length) 0 < 33 :=
      hkey _ (getD_mem_of_lt (Nat.mod_lt _ hkl) 0)
    omega
  calc (List.range work.length).map
        (fun i => ((modAlpha.encVec key work).getD i 0 + modAlpha.numAlpha.length -
          key.getD (i % key.length) 0) % modAlpha.numAlpha.length)
      = (List.range work.length).map (fun i => work.getD i 0) := by
        apply List.map_congr_left
        intro i hi
        exact final i (List.mem_range.mp hi)
    _ = work := map_range_getD work 0

theorem get?_numAlpha_of_lt {i : Nat} (h : i < 33) :
    modAlpha.numAlpha.get? i = some (modAlpha.numAlpha.getD i 0) := by
  rw [List.get?_eq_getElem?, List.getD_eq_getElem?_getD,
    List.getElem?_eq_getElem (by rw [numAlpha_length]; exact h)]
  rfl

theorem convertVec_of_lt {v : List Nat} (hv : ∀ x ∈ v, x < 33) :
    modAlpha.convertVec v = v.map (fun i => modAlpha.numAlpha.getD i 0) :=
  filterMap_eq_map_of_some v (fun i hi => get?_numAlpha_of_lt (hv i hi))

theorem getD_numAlpha_mem {i : Nat} (h : i < 33) :
    modAlpha.numAlpha.getD i 0 ∈ modAlpha.numAlpha :=
  getD_mem_of_lt (by rw [numAlpha_length]; exact h) 0

theorem convertStr_map_getD {v : List Nat} (hv : ∀ x ∈ v, x < 33) :
    modAlpha.convertStr (v.map (fun i => modAlpha.numAlpha.getD i 0)) = v := by
  rw [modAlpha.convertStr, List.filterMap_map]
  have step : ∀ i ∈ v,
      (modAlpha.alphaNum (modAlpha.toUpper (modAlpha.numAlpha.getD i 0))) = some i := by
    intro i hi
    rw [toUpper_of_upper (iswupper_of_mem_numAlpha (getD_numAlpha_mem (hv i hi))),
      alphaNum_of_getD (hv i hi)]
  calc v.filterMap
        ((fun c => modAlpha.alphaNum (modAlpha.toUpper c)) ∘
          (fun i => modAlpha.numAlpha.getD i 0))
      = v.map id := filterMap_eq_map_of_some v (fun i hi => step i hi)
    _ = v := List.map_id v

theorem getValidOpenText_ok {s : List Nat}
    (h : (s.filter iswalpha).map modAlpha.foldUpper ≠ []) :
    modAlpha.getValidOpenText s = .ok ((s.filter iswalpha).map modAlpha.foldUpper) := by
  rw [modAlpha.getValidOpenText]
  simp only [List.isEmpty_eq_true, h]
  rfl

theorem getValidCipherText_ok {w : List Nat} (h1 : w ≠ [])
    (h2 : ∀ c ∈ w, iswupper c = true) :
    modAlpha.getValidCipherText w = .ok w := by
  rw [modAlpha.getValidCipherText, if_neg (by simp [h1]),
    if_pos (List.all_eq_true.mpr h2)]

theorem normalizeAlpha_eq {t : List Nat} :
    modAlpha.normalizeAlpha t =
      modAlpha.convertVec (modAlpha.convertStr
        ((t.filter iswalpha).map modAlpha.foldUpper)) := by
  rw [convertStr_of_upper (fun c hc => mem_validOpen_upper hc),
    convertVec_filterMap_alphaNum, modAlpha.normalizeAlpha]

/-- Core of the shift-engine round trip, for any non-empty key of alphabet
indices. -/
theorem shift_round_core {key t : List Nat} (hk : key ≠ [])
    (hke : ∀ x ∈ key, x < 33) (hn : modAlpha.normalizeAlpha t ≠ []) :
    (modAlpha.encrypt key t).bind (modAlpha.decrypt key) =
      .ok (modAlpha.normalizeAlpha t) := by
  set u := (t.filter iswalpha).map modAlpha.foldUpper with hu_def
  have hu_upper : ∀ c ∈ u, iswupper c = true := fun c hc => mem_validOpen_upper hc
  have hu_ne : u ≠ [] := by
    intro h
    apply hn
    rw [modAlpha.normalizeAlpha, ← hu_def, h]
    rfl
  set work := modAlpha.convertStr u with hwork_def
  have hwork_lt : ∀ x ∈ work, x < 33 := fun x hx => convertStr_lt hx
  have hnorm : modAlpha.convertVec work = modAlpha.normalizeAlpha t := by
    rw [normalizeAlpha_eq]
  have hwork_ne : work ≠ [] := by
    intro h
    apply hn
    rw [← hnorm, h]
    rfl
  have henc : modAlpha.encrypt key t =
      .ok (modAlpha.convertVec (modAlpha.encVec key work)) := by
    rw [modAlpha.encrypt, getValidOpenText_ok hu_ne, except_ok_bind,
      if_neg (by simp [hk])]
  set E := modAlpha.convertVec (modAlpha.encVec key work) with hE_def
  have hE_map : E = (modAlpha.encVec key work).map
      (fun i => modAlpha.numAlpha.getD i 0) :=
    convertVec_of_lt (fun x hx => encVec_lt hx)
  have hE_ne : E ≠ [] := by
    rw [hE_map]
    intro h
    apply hwork_ne
    have hlen := congrArg List.length h
    rw [List.length_map, encVec_length, List.length_nil] at hlen
    exact List.length_eq_zero.mp hlen
  have hE_upper : ∀ c ∈ E, iswupper c = true := by
    intro c hc
    rw [hE_map] at hc
    obtain ⟨i, hi, rfl⟩ := List.mem_map.mp hc
    exact iswupper_of_mem_numAlpha (getD_numAlpha_mem (encVec_lt hi))
  have hdec : modAlpha.decrypt key E = .ok (modAlpha.normalizeAlpha t) := by
    rw [modAlpha.decrypt, getValidCipherText_ok hE_ne hE_upper, except_ok_bind,
      if_neg (by simp [hk])]
    rw [hE_map, convertStr_map_getD (fun x hx => encVec_lt hx),
      decVec_encVec hk hke hwork_lt, hnorm]
  rw [henc]
  exact hdec

theorem except_error_bind {e a b : Type _} (x : e) (f : a → Except e b) :
    (do let v ← (Except.error x : Except e a); f v) = Except.error x := rfl

theorem alphaNum_eq_none {c : Nat} (h : c ∉ modAlpha.numAlpha) :
    modAlpha.alphaNum c = none :=
  lookupIdx_eq_none modAlpha.numAlpha 0 (fun x hx hxc => h (by rwa [hxc] at hx))

theorem filterMap_filter_of_none {α β : Type _} {p : α → Bool} {f : α → Option β} :
    ∀ l : List α, (∀ a ∈ l, p a = false → f a = none) →
      (l.filter p).filterMap f = l.filterMap f
  | [], _ => rfl
  | a :: l, h => by
    have ih := filterMap_filter_of_none l
      (fun x hx hp => h x (List.mem_cons_of_mem a hx) hp)
    rw [List.filter_cons]
    cases hp : p a with
    | true => rw [if_pos rfl, List.filterMap_cons, List.filterMap_cons, ih]
    | false =>
      rw [if_neg (by simp), List.filterMap_cons,
        h a (List.mem_cons_self a l) hp, ih]

theorem convertStr_normalizeAlpha (t : List Nat) :
    modAlpha.convertStr (modAlpha.normalizeAlpha t) =
      modAlpha.convertStr ((t.filter iswalpha).map modAlpha.foldUpper) := by
  set u := (t.filter iswalpha).map modAlpha.foldUpper with hu
  rw [modAlpha.normalizeAlpha, ← hu,
    convertStr_of_upper (fun c hc => mem_validOpen_upper hc)]
  rw [convertStr_of_upper (fun c hc =>
    mem_validOpen_upper (List.mem_of_mem_filter hc))]
  exact filterMap_filter_of_none u (fun a _ hp =>
    alphaNum_eq_none (by
      intro hmem
      rw [← Bool.not_eq_true, contains_eq_mem_list] at hp
      exact hp hmem))

theorem getValidKey_ok {s ks : List Nat} (h : modAlpha.getValidKey s = .ok ks) :
    ks = s.map modAlpha.foldUpper ∧ s ≠ [] ∧ ∀ c ∈ s, iswalpha c = true := by
  rw [modAlpha.getValidKey] at h
  split_ifs at h with h1 h2
  all_goals first
    | (cases h; exact ⟨rfl, by simpa using h1, List.all_eq_true.mp h2⟩)
    | cases h

theorem makeKey_ok {s key : List Nat} (h : modAlpha.makeKey s = .ok key) :
    ∃ ks, modAlpha.getValidKey s = .ok ks ∧ key = modAlpha.convertStr ks := by
  rw [modAlpha.makeKey] at h
  cases hv : modAlpha.getValidKey s with
  | error e => rw [hv] at h; cases h
  | ok ks =>
    rw [hv] at h
    injection h with h
    exact ⟨ks, rfl, h.symm⟩

theorem makeKey_lt {s key : List Nat} (h : modAlpha.makeKey s = .ok key) :
    ∀ x ∈ key, x < 33 := by
  obtain ⟨ks, -, rfl⟩ := makeKey_ok h
  exact fun x hx => convertStr_lt hx

theorem length_filterMap_of_isSome {α β : Type _} {f : α → Option β} :
    ∀ l : List α, (∀ a ∈ l, (f a).isSome = true) →
      (l.filterMap f).length = l.length
  | [], _ => rfl
  | a :: l, h => by
    rw [List.filterMap_cons]
    obtain ⟨b, hb⟩ := Option.isSome_iff_exists.mp (h a (List.mem_cons_self a l))
    rw [hb]
    simp only [List.length_cons]
    rw [length_filterMap_of_isSome l (fun x hx => h x (List.mem_cons_of_mem a hx))]

theorem getD_map_of_lt {α β : Type _} {f : α → β} {l : List α} {i : Nat}
    (h : i < l.length) (d : β) (d2 : α) :
    (l.map f).getD i d = f (l.getD i d2) := by
  rw [List.getD_eq_getElem?_getD, List.getElem?_map, List.getElem?_eq_getElem h,
    List.getD_eq_getElem?_getD, List.getElem?_eq_getElem h]
  rfl

theorem table_getValidCipherText_error {w : List Nat} (h1 : w ≠ [])
    (h2 : ∃ c ∈ w, c ∉ Table.upperT) :
    Table.getValidCipherText w = .error "Invalid cipher text" := by
  rw [Table.getValidCipherText, if_neg (by simp [h1]), if_neg]
  intro hall
  obtain ⟨c, hc, hmem⟩ := h2
  exact hmem (contains_eq_mem_list.mp (List.all_eq_true.mp hall c hc))

theorem alpha_getValidCipherText_error {w : List Nat} (h1 : w ≠ [])
    (h2 : ∃ c ∈ w, iswupper c = false) :
    modAlpha.getValidCipherText w = .error "Incorrect data entry" := by
  rw [modAlpha.getValidCipherText, if_neg (by simp [h1]), if_neg]
  intro hall
  obtain ⟨c, hc, hup⟩ := h2
  rw [List.all_eq_true.mp hall c hc] at hup
  cases hup

theorem table_getValidOpenText_ok {s : List Nat} (h : Table.normalizeT s ≠ []) :
    Table.getValidOpenText s = .ok (Table.normalizeT s) := by
  rw [Table.getValidOpenText]
  simp only [List.isEmpty_eq_true, h]
  rfl

theorem table_encrypt_ok {cols : Nat} {s : List Nat} (h : Table.normalizeT s ≠ []) :
    ∃ o, Table.encrypt cols s = .ok o := by
  rw [Table.encrypt, table_getValidOpenText_ok h, except_ok_bind]
  exact ⟨_, rfl⟩

theorem table_encrypt_empty {cols : Nat} {s : List Nat} (h : Table.normalizeT s = []) :
    Table.encrypt cols s = .error "Empty text: no valid Russian letters" := by
  rw [Table.encrypt, Table.getValidOpenText, h]
  rfl

theorem alpha_encrypt_empty {key t : List Nat} (h : t.filter iswalpha = []) :
    modAlpha.encrypt key t = .error "Empty text, no letters" := by
  rw [modAlpha.encrypt, modAlpha.getValidOpenText, h]
  rfl

theorem alpha_encrypt_ok {key t : List Nat} (hk : key ≠ [])
    (h : t.filter iswalpha ≠ []) :
    ∃ o, modAlpha.encrypt key t = .ok o := by
  have hmap : (t.filter iswalpha).map modAlpha.foldUpper ≠ [] := by
    intro hc
    exact h (List.map_eq_nil_iff.mp hc)
  rw [modAlpha.encrypt, getValidOpenText_ok hmap, except_ok_bind,
    if_neg (by simp [hk])]
  exact ⟨_, rfl⟩

theorem table_encrypt_empty_iff (cols : Nat) (t : List Nat) :
    Table.encrypt cols t = .error "Empty text: no valid Russian letters" ↔
      Table.normalizeT t = [] := by
  constructor
  · intro h
    by_contra hne
    obtain ⟨o, ho⟩ := @table_encrypt_ok cols t hne
    rw [ho] at h
    cases h
  · exact table_encrypt_empty

theorem alpha_encrypt_empty_iff (key t : List Nat) :
    modAlpha.encrypt key t = .error "Empty text, no letters" ↔
      t.filter iswalpha = [] := by
  constructor
  · intro h
    by_contra hne
    have hmap : (t.filter iswalpha).map modAlpha.foldUpper ≠ [] := by
      intro hc
      exact hne (List.map_eq_nil_iff.mp hc)
    rw [modAlpha.encrypt, getValidOpenText_ok hmap, except_ok_bind] at h
    dsimp only at h
    split_ifs at h with hg
    injection h with hs
    exact absurd hs (by decide)
  · exact alpha_encrypt_empty

/-- The position-wise description of `modAlphaCipher::encrypt`:
`output[i] = numAlpha[(p_i + key[i % key.size()]) % 33]` for the alphabet
index `p_i` of the `i`-th normalized symbol. -/
theorem shift_encrypt_spec {key t : List Nat} (hk : key ≠ [])
    (hn : modAlpha.normalizeAlpha t ≠ []) :
    ∃ o, modAlpha.encrypt key t = .ok o ∧
      o.length = (modAlpha.normalizeAlpha t).length ∧
      ∀ i, i < o.length → o.getD i 0 =
        modAlpha.numAlpha.getD
          (((modAlpha.convertStr (modAlpha.normalizeAlpha t)).getD i 0 +
            key.getD (i % key.length) 0) % 33) 0 := by
  set u := (t.filter iswalpha).map modAlpha.foldUpper with hu_def
  have hu_ne : u ≠ [] := by
    intro h
    apply hn
    rw [modAlpha.normalizeAlpha, ← hu_def, h]
    rfl
  set work := modAlpha.convertStr u with hwork_def
  have hwork_lt : ∀ x ∈ work, x < 33 := fun x hx => convertStr_lt hx
  have hwork_eq : modAlpha.convertStr (modAlpha.normalizeAlpha t) = work := by
    rw [convertStr_normalizeAlpha, hwork_def, hu_def]
  have hnorm : modAlpha.convertVec work = modAlpha.normalizeAlpha t := by
    rw [normalizeAlpha_eq]
  have hnorm_len : (modAlpha.normalizeAlpha t).length = work.length := by
    rw [← hnorm, convertVec_of_lt hwork_lt, List.length_map]
  have henc : modAlpha.encrypt key t =
      .ok (modAlpha.convertVec (modAlpha.encVec key work)) := by
    rw [modAlpha.encrypt, getValidOpenText_ok hu_ne, except_ok_bind,
      if_neg (by simp [hk])]
  refine ⟨modAlpha.convertVec (modAlpha.encVec key work), henc, ?_, ?_⟩
  · rw [convertVec_of_lt (fun x hx => encVec_lt hx), List.length_map,
      encVec_length, hnorm_len]
  · intro i hi
    rw [convertVec_of_lt (fun x hx => encVec_lt hx), List.length_map,
      encVec_length] at hi
    rw [convertVec_of_lt (fun x hx => encVec_lt hx),
      getD_map_of_lt (by rwa [encVec_length]) 0 0, modAlpha.encVec,
      getD_map_range hi, hwork_eq, numAlpha_length]

/-- The position-wise description of `modAlphaCipher::decrypt`:
`output[i] = numAlpha[(c_i + 33 - key[i % key.size()]) % 33]` for the
alphabet index `c_i` of the `i`-th ciphertext symbol. -/
theorem shift_decrypt_spec {key w : List Nat} (hk : key ≠ []) (hw_ne : w ≠ [])
    (hw : ∀ c ∈ w, c ∈ modAlpha.numAlpha) :
    ∃ p, modAlpha.decrypt key w = .ok p ∧ p.length = w.length ∧
      ∀ i, i < p.length → p.getD i 0 =
        modAlpha.numAlpha.getD
          (((modAlpha.convertStr w).getD i 0 + 33 -
            key.getD (i % key.length) 0) % 33) 0 := by
  set work := modAlpha.convertStr w with hwork_def
  have hwork_lt : ∀ x ∈ work, x < 33 := fun x hx => convertStr_lt hx
  have hwork_len : work.length = w.length := by
    rw [hwork_def, convertStr_of_upper (fun c hc => iswupper_of_mem_numAlpha (hw c hc))]
    exact length_filterMap_of_isSome w
      (fun c hc => lookupIdx_isSome modAlpha.numAlpha 0 (hw c hc))
  have hdec : modAlpha.decrypt key w =
      .ok (modAlpha.convertVec (modAlpha.decVec key work)) := by
    rw [modAlpha.decrypt,
      getValidCipherText_ok hw_ne (fun c hc => iswupper_of_mem_numAlpha (hw c hc)),
      except_ok_bind, if_neg (by simp [hk])]
  have hdev_lt : ∀ x ∈ modAlpha.decVec key work, x < 33 := by
    intro x hx
    obtain ⟨i, -, rfl⟩ := List.mem_map.mp hx
    exact Nat.mod_lt _ (by rw [numAlpha_length]; omega)
  have hdev_len : (modAlpha.decVec key work).length = work.length := by
    rw [modAlpha.decVec, List.length_map, List.length_range]
  refine ⟨modAlpha.convertVec (modAlpha.decVec key work), hdec, ?_, ?_⟩
  · rw [convertVec_of_lt hdev_lt, List.length_map, hdev_len, hwork_len]
  · intro i hi
    rw [convertVec_of_lt hdev_lt, List.length_map, hdev_len] at hi
    rw [convertVec_of_lt hdev_lt, getD_map_of_lt (by rwa [hdev_len]) 0 0,
      modAlpha.decVec, getD_map_range hi, numAlpha_length]

/-! ### Claim theorems: shift engine -/

/-- C1 (counterexample to the claim as stated): the key string "A" (a Latin
capital, code 65) is accepted by the constructor, yet its derived key vector
is empty, so on the text "П" the round trip does not return the normalized
text — the key-cycling index `i % key.size()` divides by zero.  Moreover the
engine's alphabet holds 33 letters, not 32. -/
theorem claim_C1_counterexample :
    modAlpha.makeKey [65] = .ok [] ∧
    modAlpha.normalizeAlpha [1055] = [1055] ∧
    (modAlpha.encrypt [] [1055]).bind (modAlpha.decrypt []) =
      .error "undefined: empty key (modulo by zero)" ∧
    (Except.error "undefined: empty key (modulo by zero)" :
      Except String (List Nat)) ≠ .ok [1055] ∧
    modAlpha.numAlpha.length = 33 :=
  ⟨rfl, rfl, rfl, fun h => Except.noConfusion h, rfl⟩

/-- C1 (amended): for every key string accepted by the constructor whose
derived key vector is non-empty, and every text whose normalization to the
33-letter alphabet is non-empty, decrypt ∘ encrypt returns exactly the
normalized text. -/
theorem claim_C1_amended {s key t : List Nat} (hs : modAlpha.makeKey s = .ok key)
    (hk : key ≠ []) (hn : modAlpha.normalizeAlpha t ≠ []) :
    (modAlpha.encrypt key t).bind (modAlpha.decrypt key) =
      .ok (modAlpha.normalizeAlpha t) :=
  shift_round_core hk (makeKey_lt hs) hn

/-- Witness for C1 (amended): key "В", text "ПРИВЕТ". -/
theorem claim_C1_witness :
    modAlpha.makeKey [1042] = .ok [2] ∧
    (modAlpha.encrypt [2] [1055, 1056, 1048, 1042, 1045, 1058]).bind
      (modAlpha.decrypt [2]) =
      .ok (modAlpha.normalizeAlpha [1055, 1056, 1048, 1042, 1045, 1058]) :=
  ⟨rfl, claim_C1_amended
    (show modAlpha.makeKey [1042] = .ok [2] from rfl) (by decide) (by decide)⟩

/-- C3 (counterexample to the claim as stated): the Latin key "A" is
accepted yet its derived key vector is empty (not "length ≥ 1"), and the
key "Я" derives the vector `[32]`, whose element lies outside `[0, 32)`. -/
theorem claim_C3_counterexample :
    modAlpha.makeKey [65] = .ok [] ∧
    modAlpha.makeKey [1071] = .ok [32] ∧ ¬ (32 : Nat) < 32 :=
  ⟨rfl, rfl, by omega⟩

/-- C3 (amended): for every key string accepted by the constructor, every
element of the derived numeric key lies in `[0, 33)`; the derived key is
empty exactly when no (case-folded) character of the key word is a letter of
the 33-letter alphabet. -/
theorem claim_C3_amended {s key : List Nat} (h : modAlpha.makeKey s = .ok key) :
    (∀ x ∈ key, x < 33) ∧
      (key = [] ↔ ∀ c ∈ s, modAlpha.foldUpper c ∉ modAlpha.numAlpha) := by
  obtain ⟨ks, hks, rfl⟩ := makeKey_ok h
  obtain ⟨hks_eq, -, halpha⟩ := getValidKey_ok hks
  subst hks_eq
  refine ⟨fun x hx => convertStr_lt hx, ?_⟩
  have hup : ∀ c ∈ s, modAlpha.toUpper (modAlpha.foldUpper c) = modAlpha.foldUpper c :=
    fun c hc => toUpper_of_upper (foldUpper_upper (halpha c hc))
  rw [modAlpha.convertStr, List.filterMap_eq_nil_iff]
  constructor
  · intro hnone c hc hmem
    have h1 := hnone (modAlpha.foldUpper c) (List.mem_map_of_mem modAlpha.foldUpper hc)
    rw [hup c hc] at h1
    have h2 := lookupIdx_isSome modAlpha.numAlpha 0 hmem
    rw [modAlpha.alphaNum] at h1
    rw [h1] at h2
    cases h2
  · intro hall a ha
    obtain ⟨c, hc, rfl⟩ := List.mem_map.mp ha
    rw [hup c hc]
    exact alphaNum_eq_none (hall c hc)

/-- Witness for C3 (amended): the key "МИР" derives `[13, 9, 17]`. -/
theorem claim_C3_witness :
    (∀ x ∈ [13, 9, 17], x < 33) ∧
      (([13, 9, 17] : List Nat) = [] ↔
        ∀ c ∈ [1052, 1048, 1056], modAlpha.foldUpper c ∉ modAlpha.numAlpha) :=
  claim_C3_amended (show modAlpha.makeKey [1052, 1048, 1056] = .ok [13, 9, 17] from rfl)

/-- C4 (counterexample to the claim as stated): for the shift engine the
uppercase Latin input "AБ" contains the out-of-alphabet character A (65),
yet decrypt raises no error: the character passes the `iswupper` check and
is silently dropped by `convert`. -/
theorem claim_C4_counterexample :
    (65 ∉ modAlpha.numAlpha) ∧
    modAlpha.decrypt [1] [65, 1041] = .ok [1040] ∧
    (∀ e, modAlpha.decrypt [1] [65, 1041] ≠ .error e) :=
  ⟨by decide, rfl, fun e h => Except.noConfusion h⟩

/-- C4 (amended): the transposition engine's decrypt raises
`InvalidCipherText` whenever its input has any character outside the
33 uppercase alphabet letters; the shift engine's decrypt raises it exactly
for characters failing `iswupper` (lowercase, digits, punctuation,
whitespace), while uppercase letters outside the alphabet (e.g. Latin
capitals) pass validation and are silently dropped rather than rejected. -/
theorem claim_C4_amended :
    (∀ (cols : Nat) (w : List Nat), w ≠ [] → (∃ c ∈ w, c ∉ Table.upperT) →
      Table.decrypt cols w = .error "Invalid cipher text") ∧
    (∀ (key w : List Nat), w ≠ [] → (∃ c ∈ w, iswupper c = false) →
      modAlpha.decrypt key w = .error "Incorrect data entry") ∧
    (∀ (key w : List Nat), (∀ c ∈ w, iswupper c = true) →
      modAlpha.decrypt key w ≠ .error "Incorrect data entry") := by
  refine ⟨?_, ?_, ?_⟩
  · intro cols w h1 h2
    rw [Table.decrypt, table_getValidCipherText_error h1 h2, except_error_bind]
  · intro key w h1 h2
    rw [modAlpha.decrypt, alpha_getValidCipherText_error h1 h2, except_error_bind]
  · intro key w h2
    by_cases h1 : w = []
    · subst h1
      intro hc
      rw [modAlpha.decrypt] at hc
      injection hc with hs
      exact absurd hs (by decide)
    · rw [modAlpha.decrypt, getValidCipherText_ok h1 h2, except_ok_bind]
      dsimp only
      split_ifs with hg
      · intro hc
        injection hc with hs
        exact absurd hs (by decide)
      · intro hc
        cases hc

/-- Witness for C4 (amended): lowercase corruption "сТКДЖФ" and a digit,
against both engines. -/
theorem claim_C4_witness :
    Table.decrypt 3 [1048, 1058, 1056, 49] = .error "Invalid cipher text" ∧
    modAlpha.decrypt [2] [1089, 1058, 1050, 1044, 1046, 1060] =
      .error "Incorrect data entry" ∧
    modAlpha.decrypt [2] [65, 66] ≠ .error "Incorrect data entry" :=
  ⟨(claim_C4_amended.1 3 _ (by decide) ⟨49, by decide, by decide⟩),
   (claim_C4_amended.2.1 [2] _ (by decide) ⟨1089, by decide, by decide⟩),
   (claim_C4_amended.2.2 [2] _ (by decide))⟩

/-- C5 (counterexample to the claim as stated): for the shift engine, the
Latin-letter-only input "AB" contains no letter of the engine's alphabet,
yet encrypt does not fail — it returns the empty string. -/
theorem claim_C5_counterexample :
    iswalpha 65 = true ∧ iswalpha 66 = true ∧
    (∀ c ∈ [65, 66], c ∉ modAlpha.numAlpha) ∧
    modAlpha.encrypt [1] [65, 66] = .ok [] :=
  ⟨rfl, rfl, by decide, rfl⟩

/-- C5 (amended): the transposition engine's encrypt fails with `EmptyText`
exactly when no character of the input is a letter of the 33-letter
alphabet; the shift engine's encrypt fails with `EmptyText` exactly when no
character is alphabetic (per `iswalpha`, which also accepts Latin letters) —
a text whose only letters are out-of-alphabet letters is accepted and
encrypts to the empty string. -/
theorem claim_C5_amended :
    (∀ (cols : Nat) (t : List Nat),
      Table.encrypt cols t = .error "Empty text: no valid Russian letters" ↔
        Table.normalizeT t = []) ∧
    (∀ (key t : List Nat),
      modAlpha.encrypt key t = .error "Empty text, no letters" ↔
        t.filter iswalpha = []) ∧
    (∀ (cols : Nat) (t : List Nat), Table.normalizeT t ≠ [] →
      ∃ o, Table.encrypt cols t = .ok o) ∧
    (∀ (key t : List Nat), key ≠ [] → t.filter iswalpha ≠ [] →
      ∃ o, modAlpha.encrypt key t = .ok o) :=
  ⟨table_encrypt_empty_iff, alpha_encrypt_empty_iff,
   fun _ _ h => table_encrypt_ok h, fun _ _ hk h => alpha_encrypt_ok hk h⟩

/-- C6 (counterexample to the claim as stated): with key "Б" (index 1) and
text "Я" (index 32), the code produces "А" — `(32 + 1) % 33 = 0` — while
the claimed formula `(p + key) mod 32` yields index 1, i.e. "Б".  The
modulus is the 33-letter alphabet size, not 32. -/
theorem claim_C6_counterexample :
    modAlpha.makeKey [1041] = .ok [1] ∧
    modAlpha.encrypt [1] [1071] = .ok [1040] ∧
    modAlpha.numAlpha.getD
      (((modAlpha.convertStr (modAlpha.normalizeAlpha [1071])).getD 0 0 +
        [1].getD (0 % ([1] : List Nat).length) 0) % 32) 0 = 1041 ∧
    (1040 : Nat) ≠ 1041 :=
  ⟨rfl, rfl, rfl, by omega⟩

/-- C6 (amended): with a constructor-derived non-empty key, encrypt maps the
normalized symbol at position `i` with alphabet index `p` to
`numAlpha[(p + key[i mod keyLength]) mod 33]` (cyclic key reuse, output
length = normalized input length), and decrypt maps index `c` to
`numAlpha[(c + 33 - key[i mod keyLength]) mod 33]`. -/
theorem claim_C6_amended {s key : List Nat} (hs : modAlpha.makeKey s = .ok key)
    (hk : key ≠ []) :
    (∀ t, modAlpha.normalizeAlpha t ≠ [] →
      ∃ o, modAlpha.encrypt key t = .ok o ∧
        o.length = (modAlpha.normalizeAlpha t).length ∧
        ∀ i, i < o.length → o.getD i 0 =
          modAlpha.numAlpha.getD
            (((modAlpha.convertStr (modAlpha.normalizeAlpha t)).getD i 0 +
              key.getD (i % key.length) 0) % 33) 0) ∧
    (∀ w, w ≠ [] → (∀ c ∈ w, c ∈ modAlpha.numAlpha) →
      ∃ p, modAlpha.decrypt key w = .ok p ∧ p.length = w.length ∧
        ∀ i, i < p.length → p.getD i 0 =
          modAlpha.numAlpha.getD
            (((modAlpha.convertStr w).getD i 0 + 33 -
              key.getD (i % key.length) 0) % 33) 0) :=
  ⟨fun _ hn => shift_encrypt_spec hk hn,
   fun _ h1 h2 => shift_decrypt_spec hk h1 h2⟩

/-- Witness for C6 (amended): key "МИР" (three indices, cycled over the
five-letter text "ААААА"), and the ciphertext "МИРМИ" decrypted back. -/
theorem claim_C6_witness :
    (∃ o, modAlpha.encrypt [13, 9, 17] [1040, 1040, 1040, 1040, 1040] = .ok o ∧
      o.length =
        (modAlpha.normalizeAlpha [1040, 1040, 1040, 1040, 1040]).length ∧
      ∀ i, i < o.length → o.getD i 0 =
        modAlpha.numAlpha.getD
          (((modAlpha.convertStr
              (modAlpha.normalizeAlpha [1040, 1040, 1040, 1040, 1040])).getD i 0 +
            [13, 9, 17].getD (i % ([13, 9, 17] : List Nat).length) 0) % 33) 0) ∧
    (∃ p, modAlpha.decrypt [13, 9, 17] [1052, 1048, 1056, 1052, 1048] = .ok p ∧
      p.length = ([1052, 1048, 1056, 1052, 1048] : List Nat).length ∧
      ∀ i, i < p.length → p.getD i 0 =
        modAlpha.numAlpha.getD
          (((modAlpha.convertStr [1052, 1048, 1056, 1052, 1048]).getD i 0 + 33 -
            [13, 9, 17].getD (i % ([13, 9, 17] : List Nat).length) 0) % 33) 0) :=
  ⟨(claim_C6_amended
      (show modAlpha.makeKey [1052, 1048, 1056] = .ok [13, 9, 17] from rfl)
      (by decide)).1 _ (by decide),
   (claim_C6_amended
      (show modAlpha.makeKey [1052, 1048, 1056] = .ok [13, 9, 17] from rfl)
      (by decide)).2 _ (by decide) (by decide)⟩

/-- C10 (confirmed): the uppercase Latin input "ABC" is non-empty and
entirely outside the alphabet, yet the shift engine's decrypt (here with the
key derived from "Б") raises no error and returns the empty string. -/
theorem claim_C10_latin_decrypt_empty :
    modAlpha.makeKey [1041] = .ok [1] ∧
    ([65, 66, 67] : List Nat) ≠ [] ∧
    (∀ c ∈ [65, 66, 67], iswupper c = true ∧ c ∉ modAlpha.numAlpha) ∧
    modAlpha.decrypt [1] [65, 66, 67] = .ok [] :=
  ⟨rfl, by decide, by decide, rfl⟩

/-- Witness for C5 (amended), at digit-only and letter inputs. -/
theorem claim_C5_witness :
    (Table.encrypt 3 [49, 50] = .error "Empty text: no valid Russian letters" ↔
      Table.normalizeT [49, 50] = []) ∧
    (modAlpha.encrypt [2] [49, 50] = .error "Empty text, no letters" ↔
      ([49, 50] : List Nat).filter iswalpha = []) ∧
    (∃ o, Table.encrypt 3 [1055, 1056] = .ok o) ∧
    (∃ o, modAlpha.encrypt [2] [1055, 1056] = .ok o) :=
  ⟨claim_C5_amended.1 3 [49, 50], claim_C5_amended.2.1 [2] [49, 50],
   claim_C5_amended.2.2.1 3 [1055, 1056] (by decide),
   claim_C5_amended.2.2.2 [2] [1055, 1056] (by decide) (by decide)⟩

/-! ### Transposition-engine grid arithmetic -/

/-- Closed form of `rows` and `fullCols` of the `Table` engine: writing the
validated length as `n = cols * R + fullCols` with `1 ≤ fullCols ≤ cols`,
the grid has `R + 1` rows and `fullCols` full columns. -/
theorem grid_shape {n cols : Nat} (hc : 1 ≤ cols) (hn : 1 ≤ n) :
    ∃ R fullCols, (n + cols - 1) / cols = R + 1 ∧
      (if n % cols = 0 then cols else n % cols) = fullCols ∧
      1 ≤ fullCols ∧ fullCols ≤ cols ∧ n = cols * R + fullCols := by
  have hdm := Nat.div_add_mod n cols
  have hmlt : n % cols < cols := Nat.mod_lt _ (by omega)
  set q := n / cols with hq
  set r := n % cols with hr
  rcases Nat.eq_zero_or_pos r with h0 | hpos
  · have hq1 : 1 ≤ q := by
      rcases Nat.eq_zero_or_pos q with hq0 | hq1
      · rw [hq0] at hdm; omega
      · exact hq1
    refine ⟨q - 1, cols, ?_, by rw [if_pos h0], by omega, Nat.le_refl _, ?_⟩
    · have harr : n + cols - 1 = (cols - 1) + cols * q := by omega
      rw [harr, Nat.add_mul_div_left _ _ (by omega : 0 < cols),
        Nat.div_eq_of_lt (by omega : cols - 1 < cols)]
      omega
    · have hmul : cols * (q - 1 + 1) = cols * (q - 1) + cols := Nat.mul_succ cols (q - 1)
      have : q - 1 + 1 = q := by omega
      rw [this] at hmul
      omega
  · have hmul : cols * (q + 1) = cols * q + cols := Nat.mul_succ cols q
    refine ⟨q, r, ?_, by rw [if_neg (by omega)], by omega, by omega, by omega⟩
    have harr : n + cols - 1 = (r - 1) + cols * (q + 1) := by omega
    rw [harr, Nat.add_mul_div_left _ _ (by omega : 0 < cols),
      Nat.div_eq_of_lt (by omega : r - 1 < cols)]
    omega

/-- Sum of the per-column depths `R` (short column) / `R + 1` (full column). -/
theorem sum_depths (f R : Nat) :
    ∀ k : Nat, ((List.range k).map (fun c => if f ≤ c then R else R + 1)).sum
      = k * R + min f k := by
  intro k
  induction k with
  | zero => simp
  | succ k ih =>
    rw [List.range_succ, List.map_append, List.sum_append, ih]
    simp only [List.map_cons, List.map_nil, List.sum_cons, List.sum_nil]
    have hms : (k + 1) * R = k * R + R := Nat.succ_mul k R
    by_cases hf : f ≤ k
    · rw [if_pos hf]
      omega
    · rw [if_neg hf]
      omega

/-- A cell `(row, col)` of the encryption grid is filled iff `row` is below
its column's depth. -/
theorem cell_filled_iff {n cols R fullCols row col : Nat}
    (hA : n = cols * R + fullCols) (hB : 1 ≤ fullCols) (hBc : fullCols ≤ cols)
    (hcol : col < cols) (hrow : row < R + 1) :
    row * cols + col < n ↔ row < (if fullCols ≤ col then R else R + 1) := by
  have hcomm : row * cols = cols * row := Nat.mul_comm row cols
  by_cases hfc : fullCols ≤ col
  · rw [if_pos hfc]
    constructor
    · intro h
      by_contra hge
      have h1 : cols * R ≤ cols * row := Nat.mul_le_mul_left cols (by omega)
      omega
    · intro h
      have h2 : cols * (row + 1) ≤ cols * R := Nat.mul_le_mul_left cols (by omega)
      have hms : cols * (row + 1) = cols * row + cols := Nat.mul_succ cols row
      omega
  · rw [if_neg hfc]
    have h1 : cols * row ≤ cols * R := Nat.mul_le_mul_left cols (by omega)
    constructor
    · intro _
      exact hrow
    · intro _
      omega

/-! ### Transposition-engine pipeline lemmas -/

theorem normalizeT_mem_upper {c : Nat} {s : List Nat}
    (hc : c ∈ Table.normalizeT s) : c ∈ Table.upperT := by
  obtain ⟨a, -, ha⟩ := List.mem_filterMap.mp hc
  rw [Table.validChar] at ha
  split_ifs at ha with hmem
  · injection ha with ha
    rw [← ha]
    exact contains_eq_mem_list.mp hmem
  · cases hlook : modAlpha.lookupIdx a Table.lowerT 0 with
    | none => rw [hlook] at ha; cases ha
    | some pos =>
      rw [hlook] at ha
      injection ha with ha
      obtain ⟨-, hlt, -⟩ := lookupIdx_spec Table.lowerT 0 pos hlook
      rw [← ha]
      exact getD_mem_of_lt (by simpa using hlt) 0

theorem upper_ne_32 {c : Nat} (h : c ∈ Table.upperT) : c ≠ 32 := by
  rw [Table.upperT, mem_numAlpha_iff] at h
  omega

theorem table_getValidCipherText_ok {w : List Nat} (h1 : w ≠ [])
    (h2 : ∀ c ∈ w, c ∈ Table.upperT) :
    Table.getValidCipherText w = .ok w := by
  rw [Table.getValidCipherText, if_neg (by simp [h1]), if_pos]
  exact List.all_eq_true.mpr (fun c hc => contains_eq_mem_list.mpr (h2 c hc))

theorem encCell_if_eq_get? {v : List Nat} (hv : ∀ c ∈ v, c ≠ 32)
    (cols row col : Nat) :
    (if Table.encCell v cols row col ≠ 32 then some (Table.encCell v cols row col)
      else none) = v.get? (row * cols + col) := by
  rw [Table.encCell]
  rcases Nat.lt_or_ge (row * cols + col) v.length with h | h
  · rw [List.getD_eq_getElem?_getD, List.getElem?_eq_getElem h]
    simp only [Option.getD_some]
    rw [if_pos (hv _ (List.getElem_mem h)), List.get?_eq_getElem?,
      List.getElem?_eq_getElem h]
  · rw [List.getD_eq_getElem?_getD, List.getElem?_eq_none (by omega)]
    simp only [Option.getD_none, ne_eq, not_true_eq_false, if_false]
    rw [List.get?_eq_getElem?, List.getElem?_eq_none (by omega)]

theorem get?_map_range {α : Type _} (g : Nat → α) (d r : Nat) :
    ((List.range d).map g).get? r = if r < d then some (g r) else none := by
  rcases Nat.lt_or_ge r d with h | h
  · rw [if_pos h, List.get?_eq_getElem?, List.getElem?_map, List.getElem?_range h]
    rfl
  · rw [if_neg (by omega), List.get?_eq_getElem?,
      List.getElem?_eq_none (by simpa using h)]

theorem filterMap_cons_toList {α β : Type _} (f : α → Option β) (x : α)
    (xs : List α) :
    (x :: xs).filterMap f = (f x).toList ++ xs.filterMap f := by
  rw [List.filterMap_cons]
  cases f x <;> simp

theorem range_map_sub (k : Nat) :
    (List.range k).map (fun i => k - 1 - i) = (List.range k).reverse := by
  apply List.ext_getElem
  · simp
  · intro i h1 h2
    rw [List.getElem_map, List.getElem_range,
      List.getElem_reverse, List.getElem_range, List.length_range]

theorem get?_eq_some_getD {α : Type _} {l : List α} {i : Nat}
    (h : i < l.length) (d : α) : l.get? i = some (l.getD i d) := by
  rw [List.get?_eq_getElem?, List.getElem?_eq_getElem h,
    List.getD_eq_getElem?_getD, List.getElem?_eq_getElem h]
  rfl

/-- Evaluation of `Table::encrypt` on a text with non-empty normalization: the grid
readout, with the blank test already resolved (validated characters are
letters, never the blank). -/
theorem table_encrypt_eq {cols : Nat} {t : List Nat}
    (hne : Table.normalizeT t ≠ []) :
    Table.encrypt cols t = .ok
      (((List.range cols).reverse).flatMap (fun col =>
        (List.range (((Table.normalizeT t).length + cols - 1) / cols)).filterMap
          (fun row => (Table.normalizeT t).get? (row * cols + col)))) := by
  rw [Table.encrypt, table_getValidOpenText_ok hne, except_ok_bind]
  dsimp only
  congr 1
  apply List.flatMap_congr
  intro col _
  apply List.filterMap_congr
  intro row _
  exact encCell_if_eq_get? (fun c hc => upper_ne_32 (normalizeT_mem_upper hc))
    cols row col

/-- The block of column `col` read out by `Table::encrypt` is exactly the
`depth col` cells `v[row * cols + col]`, `row < depth col`. -/
theorem colBlock_eq {v : List Nat} {cols R fullCols : Nat}
    (hA : v.length = cols * R + fullCols) (hB : 1 ≤ fullCols)
    (hBc : fullCols ≤ cols) {col : Nat} (hcol : col < cols) :
    (List.range (R + 1)).filterMap (fun row => v.get? (row * cols + col)) =
      (List.range (if fullCols ≤ col then R else R + 1)).map
        (fun row => v.getD (row * cols + col) 0) := by
  apply filterMap_range_prefix
  · split_ifs <;> omega
  · intro r hr
    have hrow : r < R + 1 := by split_ifs at hr <;> omega
    exact get?_eq_some_getD
      ((cell_filled_iff hA hB hBc hcol hrow).mpr hr) 0
  · intro r hge hlt
    have hnlt : ¬ r * cols + col < v.length := by
      rw [cell_filled_iff hA hB hBc hcol hlt]
      omega
    rw [List.get?_eq_getElem?, List.getElem?_eq_none (by omega)]

/-- Length of the `Table::encrypt` output equals the validated length. -/
theorem encOut_length {v : List Nat} {cols R fullCols : Nat}
    (hA : v.length = cols * R + fullCols) (hB : 1 ≤ fullCols)
    (hBc : fullCols ≤ cols) :
    (((List.range cols).reverse).flatMap (fun col =>
      (List.range (R + 1)).filterMap (fun row => v.get? (row * cols + col)))).length
      = v.length := by
  rw [List.flatMap_congr (fun col hcol =>
    colBlock_eq hA hB hBc (List.mem_range.mp (List.mem_reverse.mp hcol)))]
  rw [List.length_flatMap]
  simp only [Function.comp_def, List.length_map, List.length_range]
  rw [List.map_reverse, List.sum_reverse, sum_depths]
  omega

/-- Every character of the `Table::encrypt` output is a character of the
validated text. -/
theorem encOut_mem {v : List Nat} {cols rows c : Nat}
    (hc : c ∈ ((List.range cols).reverse).flatMap (fun col =>
      (List.range rows).filterMap (fun row => v.get? (row * cols + col)))) :
    c ∈ v := by
  obtain ⟨col, -, hcol⟩ := List.mem_flatMap.mp hc
  obtain ⟨row, -, hrow⟩ := List.mem_filterMap.mp hcol
  exact List.get?_mem hrow

/-- Evaluation of `Table::decrypt` on validated input: split the ciphertext into the
per-column chunks and read the grid back row-major. -/
theorem table_decrypt_eq {cols : Nat} {w : List Nat} (h1 : w ≠ [])
    (h2 : ∀ c ∈ w, c ∈ Table.upperT) :
    Table.decrypt cols w =
      .ok ((List.range ((w.length + cols - 1) / cols)).flatMap
        (fun row => (List.range cols).filterMap (fun col =>
          ((Table.splitDepths (((List.range cols).reverse).map (fun col =>
            if (if w.length % cols = 0 then cols else w.length % cols) ≤ col
            then (w.length + cols - 1) / cols - 1
            else (w.length + cols - 1) / cols)) w).getD
              (cols - 1 - col) []).get? row))) := by
  rw [Table.decrypt, table_getValidCipherText_ok h1 h2, except_ok_bind]

/-- Round trip of the transposition engine on a text with non-empty
normalization, for any positive column count. -/
theorem table_round_core {cols : Nat} {t : List Nat} (hc : 1 ≤ cols)
    (hn : Table.normalizeT t ≠ []) :
    (Table.encrypt cols t).bind (Table.decrypt cols) =
      .ok (Table.normalizeT t) := by
  set v := Table.normalizeT t with hv
  have hn1 : 1 ≤ v.length := List.length_pos.mpr hn
  obtain ⟨R, fullCols, hrows, hfull, hB, hBc, hA⟩ := grid_shape hc hn1
  rw [table_encrypt_eq hn, hrows]
  show Table.decrypt cols
    (((List.range cols).reverse).flatMap (fun col =>
      (List.range (R + 1)).filterMap (fun row => v.get? (row * cols + col))))
    = .ok v
  set E := ((List.range cols).reverse).flatMap (fun col =>
    (List.range (R + 1)).filterMap (fun row => v.get? (row * cols + col)))
    with hE_def
  have hElen : E.length = v.length := encOut_length hA hB hBc
  have hEne : E ≠ [] := by
    intro h
    rw [h] at hElen
    simp only [List.length_nil] at hElen
    omega
  have hEmem : ∀ c ∈ E, c ∈ Table.upperT :=
    fun c hcm => normalizeT_mem_upper (hv ▸ encOut_mem hcm)
  rw [table_decrypt_eq hEne hEmem, hElen, hrows, hfull]
  simp only [Nat.add_sub_cancel]
  congr 1
  set B := fun col => (List.range (if fullCols ≤ col then R else R + 1)).map
    (fun row => v.getD (row * cols + col) 0) with hB_def
  have hEblocks : E = ((List.range cols).reverse).flatMap B := by
    rw [hE_def]
    exact List.flatMap_congr (fun col hcol =>
      colBlock_eq hA hB hBc (List.mem_range.mp (List.mem_reverse.mp hcol)))
  have hlenB : ((List.range cols).reverse).map
        (fun col => if fullCols ≤ col then R else R + 1)
      = (((List.range cols).reverse).map B).map List.length := by
    rw [List.map_map]
    apply List.map_congr_left
    intro col _
    simp [hB_def, Function.comp_def, List.length_map, List.length_range]
  have hfills : Table.splitDepths
        (((List.range cols).reverse).map
          (fun col => if fullCols ≤ col then R else R + 1)) E
      = ((List.range cols).reverse).map B := by
    rw [hlenB, hEblocks, List.flatMap_def]
    exact splitDepths_flatten (((List.range cols).reverse).map B)
  rw [hfills]
  have hgetD : ∀ col, col < cols →
      ((((List.range cols).reverse).map B).getD (cols - 1 - col) []) = B col := by
    intro col hcol
    rw [getD_map_of_lt (by
      simp only [List.length_reverse, List.length_range]
      omega) [] 0]
    have : ((List.range cols).reverse).getD (cols - 1 - col) 0 = col := by
      rw [getD_reverse_range cols (cols - 1 - col) (by omega)]
      omega
    rw [this]
  have hcell : ∀ row, row < R + 1 → ∀ col, col < cols →
      (B col).get? row = v.get? (row * cols + col) := by
    intro row hrow col hcol
    rw [hB_def]
    rw [get?_map_range]
    by_cases hlt : row < (if fullCols ≤ col then R else R + 1)
    · rw [if_pos hlt,
        get?_eq_some_getD ((cell_filled_iff hA hB hBc hcol hrow).mpr hlt) 0]
    · rw [if_neg hlt, List.get?_eq_getElem?, List.getElem?_eq_none]
      have := (cell_filled_iff hA hB hBc hcol hrow).not.mpr hlt
      omega
  have hrewrite : (List.range (R + 1)).flatMap (fun row =>
        (List.range cols).filterMap (fun col =>
          ((((List.range cols).reverse).map B).getD (cols - 1 - col) []).get? row))
      = (List.range (R + 1)).flatMap (fun row =>
        (List.range cols).filterMap (fun col => v.get? (row * cols + col))) := by
    apply List.flatMap_congr
    intro row hrow
    apply List.filterMap_congr
    intro col hcol
    rw [hgetD col (List.mem_range.mp hcol),
      hcell row (List.mem_range.mp hrow) col (List.mem_range.mp hcol)]
  rw [hrewrite]
  have hchunk : ∀ row : Nat, (List.range cols).filterMap
        (fun col => v.get? (row * cols + col))
      = (v.drop (row * cols)).take cols :=
    fun row => filterMap_range_get?_add v (row * cols) cols
  rw [List.flatMap_congr (fun row _ => hchunk row)]
  apply flatMap_range_chunks
  have hms : (R + 1) * cols = R * cols + cols := Nat.succ_mul R cols
  have hcomm : cols * R = R * cols := Nat.mul_comm cols R
  omega

/-- When every column holds at most one cell (`n ≤ cols`), the readout is
the straight reversal of the validated text. -/
theorem table_encrypt_reverse {cols : Nat} {t : List Nat} (hc : 1 ≤ cols)
    (hn : Table.normalizeT t ≠ [])
    (hlen : (Table.normalizeT t).length ≤ cols) :
    Table.encrypt cols t = .ok (Table.normalizeT t).reverse := by
  set v := Table.normalizeT t with hv
  have hn1 : 1 ≤ v.length := List.length_pos.mpr hn
  have hrows : (v.length + cols - 1) / cols = 1 := by
    obtain ⟨R, fullCols, hrows, hfull, hB, hBc, hA⟩ := grid_shape hc hn1
    have hR : R = 0 := by
      by_contra hR0
      have h1 : cols * 1 ≤ cols * R := Nat.mul_le_mul_left cols (by omega)
      rw [Nat.mul_one] at h1
      omega
    rw [hrows, hR]
  rw [table_encrypt_eq hn, hrows]
  congr 1
  have hsingle : ∀ col : Nat, (List.range 1).filterMap
      (fun row => v.get? (row * cols + col)) = (v.get? col).toList := by
    intro col
    rw [show (List.range 1) = [0] from rfl, filterMap_cons_toList]
    simp
  rw [List.flatMap_congr (fun col _ => hsingle col), List.flatMap_reverse]
  have hrev : ∀ col ∈ List.range cols,
      (List.reverse ∘ fun col => (v.get? col).toList) col =
        (fun col => (v.get? col).toList) col := by
    intro col _
    show ((v.get? col).toList).reverse = (v.get? col).toList
    cases v.get? col <;> rfl
  rw [List.flatMap_congr hrev, flatMap_toList_eq_filterMap,
    filterMap_range_get?, List.take_of_length_le hlen]

/-- Fact: `Table::encrypt` with a single column is the identity on the validated
text. -/
theorem table_encrypt_one {t : List Nat} (hn : Table.normalizeT t ≠ []) :
    Table.encrypt 1 t = .ok (Table.normalizeT t) := by
  rw [table_encrypt_eq hn]
  congr 1
  set v := Table.normalizeT t with hv
  have h1 : (v.length + 1 - 1) / 1 = v.length := by omega
  rw [h1, show ((List.range 1).reverse) = [0] from rfl]
  rw [show ([0] : List Nat).flatMap (fun col =>
      (List.range v.length).filterMap (fun row => v.get? (row * 1 + col))) =
    (List.range v.length).filterMap (fun row => v.get? (row * 1 + 0)) by
      simp [List.flatMap_cons]]
  have hpt : ∀ row ∈ List.range v.length,
      v.get? (row * 1 + 0) = v.get? row := by
    intro row _
    have : row * 1 + 0 = row := by omega
    rw [this]
  rw [List.filterMap_congr hpt, filterMap_range_get?, List.take_length]

/-- Fact: `Table::decrypt` with a single column is the identity on validated
ciphertext. -/
theorem table_decrypt_one {w : List Nat} (h1 : w ≠ [])
    (h2 : ∀ c ∈ w, c ∈ Table.upperT) :
    Table.decrypt 1 w = .ok w := by
  rw [table_decrypt_eq h1 h2]
  congr 1
  have hrows : (w.length + 1 - 1) / 1 = w.length := by omega
  have hmod : w.length % 1 = 0 := Nat.mod_one _
  rw [hrows, hmod, if_pos rfl, show ((List.range 1).reverse) = [0] from rfl]
  rw [show ([0] : List Nat).map
      (fun col => if 1 ≤ col then w.length - 1 else w.length) = [w.length] by
    simp]
  rw [show Table.splitDepths [w.length] w = [w.take w.length] from rfl,
    List.take_length]
  have hinner : ∀ row ∈ List.range w.length,
      (List.range 1).filterMap (fun col =>
        (([w] : List (List Nat)).getD (1 - 1 - col) []).get? row) =
        (w.get? row).toList := by
    intro row _
    rw [show (List.range 1) = [0] from rfl, filterMap_cons_toList]
    simp
  rw [List.flatMap_congr hinner, flatMap_toList_eq_filterMap,
    filterMap_range_get?, List.take_length]

/-- C2 (confirmed): transposition round trip for every column count in
`[1, 100]` and every text with non-empty normalization, ragged grids
included. -/
theorem claim_C2_roundtrip {cols : Nat} {t : List Nat} (h1 : 1 ≤ cols)
    (h2 : cols ≤ 100) (hn : Table.normalizeT t ≠ []) :
    (Table.encrypt cols t).bind (Table.decrypt cols) =
      .ok (Table.normalizeT t) :=
  table_round_core h1 hn

/-- Witness for C2: "АБВГД" (5 letters) with 4 columns — a ragged grid. -/
theorem claim_C2_witness :
    (Table.encrypt 4 [1040, 1041, 1042, 1043, 1044]).bind (Table.decrypt 4) =
      .ok (Table.normalizeT [1040, 1041, 1042, 1043, 1044]) :=
  claim_C2_roundtrip (by decide) (by decide) (by decide)

/-- C7 (confirmed): when `cols` is at least the normalized length, every
column of the single-row grid holds at most one cell and the column-reversed
readout is the straight reversal of the normalized text. -/
theorem claim_C7_reversal {cols : Nat} {t : List Nat} (h1 : 1 ≤ cols)
    (h2 : cols ≤ 100) (hn : Table.normalizeT t ≠ [])
    (hge : (Table.normalizeT t).length ≤ cols) :
    Table.encrypt cols t = .ok (Table.normalizeT t).reverse :=
  table_encrypt_reverse h1 hn hge

/-- Witness for C7: `cols = 10` on "ПРИВЕТ" yields "ТЕВИРП". -/
theorem claim_C7_witness :
    Table.encrypt 10 [1055, 1056, 1048, 1042, 1045, 1058] =
      .ok (Table.normalizeT [1055, 1056, 1048, 1042, 1045, 1058]).reverse ∧
    (Table.normalizeT [1055, 1056, 1048, 1042, 1045, 1058]).reverse =
      [1058, 1045, 1042, 1048, 1056, 1055] :=
  ⟨claim_C7_reversal (by decide) (by decide) (by decide) (by decide), by decide⟩

/-- C8 (confirmed): `cols = 1` is the identity transform — encrypt returns
the normalized text and decrypt returns its validated input unchanged. -/
theorem claim_C8_identity :
    (∀ t : List Nat, Table.normalizeT t ≠ [] →
      Table.encrypt 1 t = .ok (Table.normalizeT t)) ∧
    (∀ w : List Nat, w ≠ [] → (∀ c ∈ w, c ∈ Table.upperT) →
      Table.decrypt 1 w = .ok w) :=
  ⟨fun _ hn => table_encrypt_one hn, fun _ h1 h2 => table_decrypt_one h1 h2⟩

/-- Witness for C8: "ПРИ" through both directions with one column. -/
theorem claim_C8_witness :
    Table.encrypt 1 [1055, 1056, 1048] =
      .ok (Table.normalizeT [1055, 1056, 1048]) ∧
    Table.decrypt 1 [1055, 1056, 1048] = .ok [1055, 1056, 1048] :=
  ⟨claim_C8_identity.1 _ (by decide), claim_C8_identity.2 _ (by decide) (by decide)⟩

/-! ### C9: permutation lemmas -/

theorem splitDepths_length {α : Type _} :
    ∀ (ds : List Nat) (w : List α),
      (Table.splitDepths ds w).length = ds.length
  | [], _ => rfl
  | d :: ds, w => by
    rw [Table.splitDepths, List.length_cons, List.length_cons,
      splitDepths_length ds]

theorem splitDepths_bound {α : Type _} {M : Nat} :
    ∀ (ds : List Nat) (w : List α), (∀ d ∈ ds, d ≤ M) →
      ∀ l ∈ Table.splitDepths ds w, l.length ≤ M
  | [], _, _, l, hl => absurd hl (List.not_mem_nil l)
  | d :: ds, w, h, l, hl => by
    rw [Table.splitDepths] at hl
    rcases List.mem_cons.mp hl with h1 | h1
    · subst h1
      have : (w.take d).length ≤ d := by
        rw [List.length_take]
        omega
      exact Nat.le_trans this (h d (List.mem_cons_self d ds))
    · exact splitDepths_bound ds (w.drop d)
        (fun x hx => h x (List.mem_cons_of_mem d hx)) l h1

/-- Reading a jagged table row-major visits, up to permutation, every cell
of every column exactly once. -/
theorem rowmajor_perm {α : Type _} (rows : Nat) :
    ∀ ls : List (List α), (∀ l ∈ ls, l.length ≤ rows) →
      ((List.range rows).flatMap (fun row =>
        (List.range ls.length).filterMap
          (fun j => (ls.getD j []).get? row))).Perm ls.flatten
  | [], _ => by simp
  | l :: ls, h => by
    have hsplit : ∀ row : Nat,
        (List.range (l :: ls).length).filterMap
          (fun j => ((l :: ls).getD j []).get? row)
        = (l.get? row).toList ++
          (List.range ls.length).filterMap (fun j => (ls.getD j []).get? row) := by
      intro row
      rw [List.length_cons, List.range_succ_eq_map, filterMap_cons_toList]
      congr 1
      rw [List.filterMap_map]
      apply List.filterMap_congr
      intro j _
      rfl
    rw [List.flatMap_congr (fun row _ => hsplit row)]
    refine (flatMap_append_perm (List.range rows) _ _).trans ?_
    rw [List.flatten_cons]
    have h1 : (List.range rows).flatMap (fun row => (l.get? row).toList) = l := by
      rw [flatMap_toList_eq_filterMap, filterMap_range_get?,
        List.take_of_length_le (h l (List.mem_cons_self l ls))]
    rw [h1]
    exact (rowmajor_perm rows ls
      (fun x hx => h x (List.mem_cons_of_mem l hx))).append_left l

/-- The same with the column order reversed, as `Table::decrypt` reads it. -/
theorem readout_perm {α : Type _} {rows cols : Nat} (ls : List (List α))
    (hlen : ls.length = cols) (hbound : ∀ l ∈ ls, l.length ≤ rows) :
    ((List.range rows).flatMap (fun row =>
      (List.range cols).filterMap
        (fun col => (ls.getD (cols - 1 - col) []).get? row))).Perm ls.flatten := by
  have hswap : ∀ row : Nat,
      (List.range cols).filterMap
        (fun col => (ls.getD (cols - 1 - col) []).get? row)
      = ((List.range cols).filterMap
          (fun j => (ls.getD j []).get? row)).reverse := by
    intro row
    rw [← List.filterMap_reverse, ← range_map_sub, List.filterMap_map]
    rfl
  rw [List.flatMap_congr (fun row _ => hswap row)]
  refine (flatMap_perm_of_forall_perm _ _ _
    (fun row _ => List.reverse_perm _)).trans ?_
  rw [← hlen]
  exact rowmajor_perm rows ls hbound

theorem table_decrypt_nil (cols : Nat) :
    Table.decrypt cols [] = .error "Empty cipher text" := rfl

/-- Fact: `Table::decrypt` permutes its validated input: the output is a
rearrangement of the ciphertext. -/
theorem table_decrypt_perm {cols : Nat} {w : List Nat} (hc : 1 ≤ cols)
    (h1 : w ≠ []) (h2 : ∀ c ∈ w, c ∈ Table.upperT) :
    ∃ p, Table.decrypt cols w = .ok p ∧ p.Perm w := by
  have hn1 : 1 ≤ w.length := List.length_pos.mpr h1
  obtain ⟨R, fullCols, hrows, hfull, hB, hBc, hA⟩ := grid_shape hc hn1
  rw [table_decrypt_eq h1 h2, hrows, hfull]
  simp only [Nat.add_sub_cancel]
  refine ⟨_, rfl, ?_⟩
  set ds := ((List.range cols).reverse).map
    (fun col => if fullCols ≤ col then R else R + 1) with hds
  have hsum : ds.sum = w.length := by
    rw [hds, List.map_reverse, List.sum_reverse, sum_depths]
    omega
  have hflat : (Table.splitDepths ds w).flatten = w :=
    flatten_splitDepths ds w (by omega)
  have hlen_fills : (Table.splitDepths ds w).length = cols := by
    rw [splitDepths_length, hds, List.length_map, List.length_reverse,
      List.length_range]
  have hdbound : ∀ d ∈ ds, d ≤ R + 1 := by
    intro d hd
    rw [hds] at hd
    obtain ⟨col, -, rfl⟩ := List.mem_map.mp hd
    split_ifs <;> omega
  have hbound : ∀ l ∈ Table.splitDepths ds w, l.length ≤ R + 1 :=
    splitDepths_bound ds w hdbound
  refine (readout_perm (Table.splitDepths ds w) hlen_fills hbound).trans ?_
  rw [hflat]

/-- C9 (confirmed): the transposition ciphertext is a permutation of the
normalized plaintext, and decrypt's output is a permutation of its
validated input — the cipher rearranges, never substitutes. -/
theorem claim_C9_permutation :
    (∀ (cols : Nat) (t c : List Nat), 1 ≤ cols → cols ≤ 100 →
      Table.encrypt cols t = .ok c → c.Perm (Table.normalizeT t)) ∧
    (∀ (cols : Nat) (w p : List Nat), 1 ≤ cols → cols ≤ 100 →
      Table.decrypt cols w = .ok p → p.Perm w) := by
  constructor
  · intro cols t c h1 h2 henc
    have hn : Table.normalizeT t ≠ [] := by
      intro h0
      rw [table_encrypt_empty h0] at henc
      cases henc
    have hround := table_round_core h1 hn
    rw [henc] at hround
    have hdec : Table.decrypt cols c = .ok (Table.normalizeT t) := hround
    rw [table_encrypt_eq hn] at henc
    injection henc with hc_eq
    have hcne : c ≠ [] := by
      intro h0
      rw [h0, table_decrypt_nil] at hdec
      cases hdec
    have hcmem : ∀ x ∈ c, x ∈ Table.upperT := by
      intro x hx
      rw [← hc_eq] at hx
      exact normalizeT_mem_upper (encOut_mem hx)
    obtain ⟨p, hp, hperm⟩ := table_decrypt_perm h1 hcne hcmem
    have hpv : p = Table.normalizeT t := by
      have := hp.symm.trans hdec
      injection this
    rw [hpv] at hperm
    exact hperm.symm
  · intro cols w p h1 h2 hdec
    have hwne : w ≠ [] := by
      intro h0
      rw [h0, table_decrypt_nil] at hdec
      cases hdec
    have hwmem : ∀ c ∈ w, c ∈ Table.upperT := by
      by_contra hno
      push_neg at hno
      obtain ⟨c, hcw, hcm⟩ := hno
      rw [Table.decrypt,
        table_getValidCipherText_error hwne ⟨c, hcw, hcm⟩,
        except_error_bind] at hdec
      cases hdec
    obtain ⟨p2, hp2, hperm⟩ := table_decrypt_perm h1 hwne hwmem
    have hpp : p = p2 := by
      have := hdec.symm.trans hp2
      injection this
    rw [hpp]
    exact hperm

/-- Witness for C9: cols = 3 on "ПРИВЕТМИР" gives "ИТРРЕИПВМ", each a
permutation of the other. -/
theorem claim_C9_witness :
    ([1048, 1058, 1056, 1056, 1045, 1048, 1055, 1042, 1052] : List Nat).Perm
      (Table.normalizeT [1055, 1056, 1048, 1042, 1045, 1058, 1052, 1048, 1056]) ∧
    ([1055, 1056, 1048, 1042, 1045, 1058, 1052, 1048, 1056] : List Nat).Perm
      [1048, 1058, 1056, 1056, 1045, 1048, 1055, 1042, 1052] :=
  ⟨claim_C9_permutation.1 3 _ _ (by decide) (by decide) rfl,
   claim_C9_permutation.2 3 _ _ (by decide) (by decide) rfl⟩
